import Mathlib

/-!
# kubectl-simple: the log filter of `GetPodLogs`

A shallow embedding of `pkg/plugin/plugin.go` (`GetPodLogs`) and of the part of
`cmd/plugin/cli/logs.go` (`logsCmd.Run`, `callGetPodsLogs`) that decides whether and
how `GetPodLogs` is called.

* A Go `string` is a sequence of bytes: `GoString := List UInt8`.
* `fmt.Print` appends to the field `stdout` of the state.
* A run-time panic (index out of range) is the value `none`.
* The log stream is the list of the results its successive `Read` calls deliver.
-/

namespace KubectlSimple

/-! ## Go strings and the functions of package `strings` the program calls -/

/-- One byte of a Go string. -/
abbrev Byte := UInt8

/-- A Go `string`: an immutable sequence of bytes. -/
abbrev GoString := List Byte

/-- The bytes (UTF-8) of a string literal. -/
def bytes (s : String) : GoString := s.toUTF8.data.toList

/-- The byte `'\n'`. -/
def newline : Byte := 10

/-- Go `strings.HasPrefix(s, prefix)`. -/
def HasPrefix : GoString → GoString → Bool
  | _, [] => true
  | [], _ :: _ => false
  | c :: s, d :: p => decide (c = d) && HasPrefix s p

/-- Go `strings.Index(s, substr)`: the index of the first instance of `substr` in `s`,
or `-1` when there is none. -/
def Index : GoString → GoString → Int
  | [], substr => if HasPrefix [] substr then 0 else -1
  | c :: s, substr =>
    if HasPrefix (c :: s) substr then 0
    else
      let r := Index s substr
      if r < 0 then -1 else r + 1

/-- Go `strings.Contains(s, substr)`, which is `Index(s, substr) >= 0`. -/
def Contains (s substr : GoString) : Bool := decide (Index s substr ≥ 0)

/-- The loop of Go `strings.Replace`: write `s[:j]`, write `new`, go on after the
instance found at `j`; when no instance is left, write the rest. The first argument
bounds the number of iterations. -/
def replaceLoop (old new : GoString) : Nat → GoString → GoString
  | 0, s => s
  | n + 1, s =>
    let j := Index s old
    if j < 0 then s
    else s.take j.toNat ++ new ++ replaceLoop old new n (s.drop (j.toNat + old.length))

/-- Go `strings.ReplaceAll(s, old, new)` for a non-empty `old`: every non-overlapping
instance of `old`, found from the left, is replaced by `new`. `GetPodLogs` calls it
only when `len(grep) != 0`; what Go does for an empty `old` (an insertion at every
rune boundary) is not modelled, and no statement below uses it with an empty `old`. -/
def ReplaceAll (s old new : GoString) : GoString := replaceLoop old new s.length s

/-- The loop of Go `strings.Split` (`genSplit`): cut at each instance of `sep`. The
first argument bounds the number of iterations. -/
def splitLoop (sep : GoString) : Nat → GoString → List GoString
  | 0, s => [s]
  | n + 1, s =>
    let m := Index s sep
    if m < 0 then [s]
    else s.take m.toNat :: splitLoop sep n (s.drop (m.toNat + sep.length))

/-- Go `strings.Split(s, sep)` for a non-empty `sep` (the program calls it with `"\n"`
and with `"-"`). -/
def Split (s sep : GoString) : List GoString := splitLoop sep s.length s

/-- Go `s[i]`: the byte at index `i`, a panic (`none`) when `i` is out of range. -/
def byteAt (s : GoString) (i : Int) : Option Byte :=
  if 0 ≤ i ∧ i < s.length then s[i.toNat]? else none

/-! ## `GetPodLogs` (pkg/plugin/plugin.go) -/

/-- The variables of `GetPodLogs` that live across iterations of the read loop,
together with what has been printed so far. -/
structure State where
  /-- the variable `lastLine` -/
  lastLine : GoString
  /-- the variable `lastMatching` -/
  lastMatching : Bool
  /-- the bytes written to standard output so far -/
  stdout : GoString
  deriving DecidableEq

/-- The values of the variables when the read loop is entered (plugin.go:60-61). -/
def State.init : State := { lastLine := [], lastMatching := false, stdout := [] }

/-- Go `fmt.Print(s)`. -/
def State.print (st : State) (s : GoString) : State := { st with stdout := st.stdout ++ s }

/-- The string `"\033[32m" + grep + "\033[0m"` (plugin.go:59). -/
def grepWithColor (grep : GoString) : GoString :=
  bytes "\x1b[32m" ++ grep ++ bytes "\x1b[0m"

/-- The condition `i == 0 && len(lastLine) > 0 && lastLine[len(lastLine)-1] != '\n'`
(plugin.go:104), with the short-circuit evaluation of `&&`. -/
def continuesLastLine (i : Nat) (lastLine : GoString) : Option Bool :=
  if i = 0 ∧ lastLine.length > 0 then
    (byteAt lastLine ((lastLine.length : Int) - 1)).map (fun b => decide (b ≠ newline))
  else some false

/-- The condition `i == len(split)-1 && line[len(line)-1] != '\n'` (plugin.go:118),
with the short-circuit evaluation of `&&`; `n` is `len(split)`. -/
def endsUnterminated (n i : Nat) (line : GoString) : Option Bool :=
  if i = n - 1 then
    (byteAt line ((line.length : Int) - 1)).map (fun b => decide (b ≠ newline))
  else some false

/-- One iteration of `for i, line := range split` in only-matching mode
(plugin.go:91-128); `n` is `len(split)`. -/
def onlyMatchLine (grep : GoString) (n i : Nat) (line0 : GoString) (st : State) :
    Option State := do
  let line := ReplaceAll line0 grep (grepWithColor grep)
  let st1 : State :=
    if i = 0 ∧ st.lastMatching = true then { st.print line with lastMatching := false }
    else st
  let st2 ←
    if Contains line grep then do
      let c1 ← continuesLastLine i st1.lastLine
      let sa : State := if c1 then st1.print st1.lastLine else st1
      let sb : State := sa.print line
      let sc : State := if i ≠ n - 1 then sb.print [newline] else sb
      let c2 ← endsUnterminated n i line
      pure (if c2 then { sc with lastMatching := true } else sc)
    else pure st1
  pure (if i = n - 1 then { st2 with lastLine := line } else st2)

/-- The loop `for i, line := range split` in only-matching mode, from index `i` on. -/
def onlyMatchLoop (grep : GoString) (n : Nat) : Nat → List GoString → State → Option State
  | _, [], st => some st
  | i, line :: rest, st =>
    match onlyMatchLine grep n i line st with
    | none => none
    | some st1 => onlyMatchLoop grep n (i + 1) rest st1

/-- One iteration of `for i, line := range split` when all lines are displayed
(plugin.go:132-143); `n` is `len(split)`. -/
def allLinesLine (grep : GoString) (n i : Nat) (line0 : GoString) (st : State) : State :=
  let line := ReplaceAll line0 grep (grepWithColor grep)
  let sa := st.print line
  if i ≠ n - 1 then sa.print [newline] else sa

/-- The loop `for i, line := range split` when all lines are displayed, from index `i`. -/
def allLinesLoop (grep : GoString) (n : Nat) : Nat → List GoString → State → State
  | _, [], st => st
  | i, line :: rest, st => allLinesLoop grep n (i + 1) rest (allLinesLine grep n i line st)

/-- The `switch len(grep) == 0` statement applied to one `message` (plugin.go:81-145). -/
def processMessage (grep : GoString) (onlyMatch : Bool) (message : GoString) (st : State) :
    Option State :=
  if grep.length = 0 then some (st.print message)
  else
    let split := Split message [newline]
    if onlyMatch then onlyMatchLoop grep split.length 0 split st
    else some (allLinesLoop grep split.length 0 split st)

/-- The messages of successive reads processed one after the other. -/
def processMessages (grep : GoString) (onlyMatch : Bool) :
    List GoString → State → Option State
  | [], st => some st
  | m :: ms, st =>
    match processMessage grep onlyMatch m st with
    | none => none
    | some st1 => processMessages grep onlyMatch ms st1

/-- A Go `error` value that is not `nil`: `io.EOF` or any other error. -/
inductive GoError where
  | EOF
  | other (msg : String)
  deriving DecidableEq

/-- What one call `stream.Read(buf)` delivers: the bytes `buf[:numBytes]` and `err`. -/
structure ReadResult where
  /-- the bytes read, `buf[:numBytes]` -/
  data : GoString
  /-- the error returned, `none` for `nil` -/
  err : Option GoError
  deriving DecidableEq

/-- How a run of `GetPodLogs` over a finite list of read results ends. -/
inductive Outcome where
  /-- `GetPodLogs` returned this error (`none` for `nil`) -/
  | returned (err : Option GoError)
  /-- a run-time panic -/
  | panicked
  /-- the loop is at `stream.Read` again and the list has no further result -/
  | reading
  deriving DecidableEq

/-- A run of `GetPodLogs`: what it printed, how many times it called `stream.Read`,
and how it ended. -/
structure Run where
  stdout : GoString
  reads : Nat
  outcome : Outcome
  deriving DecidableEq

/-- The statements after the loop: `fmt.Println()` and `return nil` (plugin.go:148-149). -/
def finish (st : State) (reads : Nat) : Run :=
  { stdout := st.stdout ++ [newline], reads := reads, outcome := .returned none }

/-- The read loop `for { ... }` of `GetPodLogs` (plugin.go:63-146) over the results the
stream delivers; `reads` counts the calls of `stream.Read` made so far. -/
def pullLoop (grep : GoString) (follow onlyMatch : Bool) :
    List ReadResult → State → Nat → Run
  | [], st, reads => { stdout := st.stdout, reads := reads, outcome := .reading }
  | r :: rest, st, reads =>
    if r.data.length = 0 then
      if !follow then finish st (reads + 1)
      else pullLoop grep follow onlyMatch rest st (reads + 1)
    else if r.err = some GoError.EOF then finish st (reads + 1)
    else
      match r.err with
      | some e => { stdout := st.stdout, reads := reads + 1, outcome := .returned (some e) }
      | none =>
        match processMessage grep onlyMatch r.data st with
        | none => { stdout := st.stdout, reads := reads + 1, outcome := .panicked }
        | some st1 => pullLoop grep follow onlyMatch rest st1 (reads + 1)

/-- The function `GetPodLogs` (plugin.go:42-150). `stream` is the result of
`podLogReq.Stream()`: an error, or the results its reads deliver. -/
def GetPodLogs (grep : GoString) (follow onlyMatch : Bool)
    (stream : Except GoError (List ReadResult)) : Run :=
  match stream with
  | .error e => { stdout := [], reads := 0, outcome := .returned (some e) }
  | .ok results => pullLoop grep follow onlyMatch results State.init 0

/-! ## Definitions used to state and prove the properties -/

/-- Left-to-right scan of `s`: where `old` starts, `new` is written and the scan goes on
after the instance (the first argument counts the bytes of it still to be skipped); any
other byte is copied. -/
def scanReplace (old new : GoString) : Nat → GoString → GoString
  | _, [] => []
  | k + 1, _ :: s => scanReplace old new k s
  | 0, c :: s =>
    if HasPrefix (c :: s) old then new ++ scanReplace old new (old.length - 1) s
    else c :: scanReplace old new 0 s

/-- The lines of a chunk that ends with a newline: the elements of its split but the
last one, which is the empty string after the final newline. -/
def linesOf (chunk : GoString) : List GoString := (Split chunk [newline]).dropLast

/-- The text the only-matching filter is to emit for a list of whole lines: for each
line that contains the phrase, in order, the coloured line followed by `"\n"`. -/
def expectedOnlyMatching (grep : GoString) : List GoString → GoString
  | [] => []
  | l :: ls =>
    (if Contains l grep then ReplaceAll l grep (grepWithColor grep) ++ [newline] else []) ++
      expectedOnlyMatching grep ls

/-- The rendering of a text the specification describes (`highlight`, §4.2): a literal,
case-sensitive scan from the left in which every occurrence of the phrase is wrapped
as `"\033[32m" ++ phrase ++ "\033[0m"`, the scan resuming right after the end of each
match, and every other byte is copied in place; an empty phrase leaves the text
unchanged. -/
def highlight (text phrase : GoString) : GoString :=
  if phrase = [] then text
  else scanReplace phrase (bytes "\x1b[32m" ++ phrase ++ bytes "\x1b[0m") 0 text

/-- What the loop over all lines prints: the coloured lines with `"\n"` between them. -/
def joinColoured (grep : GoString) : List GoString → GoString
  | [] => []
  | [e] => ReplaceAll e grep (grepWithColor grep)
  | e :: e' :: rest =>
    ReplaceAll e grep (grepWithColor grep) ++ [newline] ++ joinColoured grep (e' :: rest)

/-- What one iteration of the only-matching loop prints. -/
def lineOutput (grep : GoString) (n i : Nat) (e : GoString) (st : State) : GoString :=
  (if i = 0 ∧ st.lastMatching = true then ReplaceAll e grep (grepWithColor grep) else []) ++
  (if Contains e grep then
    (if i = 0 ∧ st.lastLine ≠ [] then st.lastLine else []) ++
      ReplaceAll e grep (grepWithColor grep) ++ (if i ≠ n - 1 then [newline] else [])
   else [])

/-! ## The `logs` command (cmd/plugin/cli/logs.go) -/

/-- The fields of `v1.Pod` the command uses. -/
structure Pod where
  Name : GoString
  Namespace : GoString
  deriving DecidableEq

/-- The type `PodResult` (pkg/plugin/common.go). -/
structure PodResult where
  Value : Pod
  Err : Option GoError
  deriving DecidableEq

/-- What a run of the `logs` command does, in order, as far as its collaborators are
concerned (the spinner and the listing printed with `fmt.Printf` are left out). -/
inductive Event where
  /-- a call `log.Error(err)` -/
  | logError (err : GoError)
  /-- a call `log.Info(...)` -/
  | logInfo
  /-- the call `plugin.GetClientset(KubernetesConfigFlags)` -/
  | getClientset
  /-- the call `plugin.GetPods(clientset, namespace, podCh)` -/
  | getPods (ns : GoString)
  /-- the call `fmt.Scan(&selected)` -/
  | scan
  /-- a call `plugin.GetPodLogs(clientset, grep, container, pod, namespace, follow, onlyMatch)` -/
  | getPodLogs (grep container pod ns : GoString) (follow onlyMatch : Bool)
  /-- a run-time panic -/
  | crash
  deriving DecidableEq

/-- The arguments and flags of one invocation of the `logs` command and what its
collaborators answer. `errorReturns` is the one fact about `log.Error` the control flow
depends on, whether the call returns to `Run`: package `pkg/logger` is not among the
sources. -/
structure LogsInput where
  /-- the positional arguments -/
  args : List GoString
  /-- flag `follow` -/
  follow : Bool
  /-- flag `container` -/
  container : GoString
  /-- flag `namespace` -/
  ns : GoString
  /-- flag `grep` -/
  phrase : GoString
  /-- flag `only-matching` -/
  onlyMatching : Bool
  /-- whether a call of `log.Error` returns to its caller -/
  errorReturns : Bool
  /-- the error `plugin.GetClientset` returns, `none` for `nil` -/
  clientsetErr : Option GoError
  /-- the results `plugin.GetPods` sends on the channel -/
  pods : List PodResult
  /-- the number `fmt.Scan` reads, `none` when it returns an error -/
  selected : Option Int

/-- A call `log.Error(err)` followed by the statements `next`. -/
def logErrorThen (errorReturns : Bool) (err : GoError) (next : List Event) : List Event :=
  Event.logError err :: (if errorReturns then next else [])

/-- The function `callGetPodsLogs` (logs.go:154-163). -/
def callGetPodsLogs (grep container : GoString) (pod : Pod) (tail onlyMatching : Bool) :
    List Event :=
  if container.length > 0 then
    [Event.getPodLogs grep container pod.Name pod.Namespace tail onlyMatching]
  else
    let splitPodName := Split pod.Name (bytes "-")
    match splitPodName[0]? with
    | none => [Event.crash]
    | some c => [Event.getPodLogs grep c pod.Name pod.Namespace tail onlyMatching]

/-- The loop `for result := range podCh` (logs.go:91-100): the first error, or the pods
whose name contains `inputName`. -/
def collectPods (inputName : GoString) : List PodResult → List Pod → Except GoError (List Pod)
  | [], matchingPods => .ok matchingPods
  | result :: rest, matchingPods =>
    match result.Err with
    | some err => .error err
    | none =>
      if Contains result.Value.Name inputName then
        collectPods inputName rest (matchingPods ++ [result.Value])
      else collectPods inputName rest matchingPods

/-- The statements of `Run` after the pods have been collected (logs.go:102-149). -/
def logsOfPods (inp : LogsInput) (matchingPods : List Pod) : List Event :=
  if matchingPods.length = 0 then
    logErrorThen inp.errorReturns (.other "\n\n✖ no pods found matching the provided name") []
  else if matchingPods.length = 1 then
    match matchingPods[0]? with
    | none => [Event.crash]
    | some loggingPod =>
      [Event.logInfo, Event.logInfo] ++
        callGetPodsLogs inp.phrase inp.container loggingPod inp.follow inp.onlyMatching
  else
    Event.logInfo :: Event.scan ::
      match inp.selected with
      | none =>
        Event.logInfo ::
          logErrorThen inp.errorReturns (.other "✖ please provide a valid input") []
      | some selected =>
        if selected < 1 ∨ selected > matchingPods.length then
          Event.logInfo ::
            logErrorThen inp.errorReturns (.other "✖ please provide a valid input") []
        else
          match matchingPods[(selected - 1).toNat]? with
          | none => [Event.crash]
          | some loggingPod =>
            Event.logInfo ::
              callGetPodsLogs inp.phrase inp.container loggingPod inp.follow inp.onlyMatching

/-- The statements of `Run` from the call of `GetClientset` on (logs.go:73-149). -/
def logsFromClientset (inp : LogsInput) (inputName : GoString) : List Event :=
  Event.getClientset ::
    match inp.clientsetErr with
    | some err => logErrorThen inp.errorReturns err []
    | none =>
      Event.logInfo :: Event.getPods inp.ns ::
        match collectPods inputName inp.pods [] with
        | .error err => logErrorThen inp.errorReturns err []
        | .ok matchingPods => logsOfPods inp matchingPods

/-- The function `Run` of `logsCmd` (logs.go:46-150). -/
def logsCmdRun (inp : LogsInput) : List Event :=
  match inp.args with
  | [] =>
    logErrorThen inp.errorReturns (.other "please provide the name of a deployment/service") []
  | [inputName] =>
    if inp.onlyMatching && inp.phrase.length = 0 then
      logErrorThen inp.errorReturns
        (.other "please provide a grep keyword/phrase with the only-matching flag")
        (logsFromClientset inp inputName)
    else logsFromClientset inp inputName
  | _ =>
    logErrorThen inp.errorReturns
      (.other "please provide the name of only one deployment/service") []

/-! ## Package `strings` -/

theorem HasPrefix_iff (s p : GoString) : HasPrefix s p = true ↔ p <+: s := by
  induction p generalizing s with
  | nil => simp [HasPrefix]
  | cons d p ih =>
    cases s with
    | nil => simp [HasPrefix]
    | cons c s =>
      simp only [HasPrefix, Bool.and_eq_true, decide_eq_true_eq, ih, List.cons_prefix_cons]
      constructor
      · rintro ⟨h1, h2⟩; exact ⟨h1.symm, h2⟩
      · rintro ⟨h1, h2⟩; exact ⟨h1.symm, h2⟩

theorem Index_ge_neg_one (s p : GoString) : Index s p = -1 ∨ 0 ≤ Index s p := by
  induction s with
  | nil => unfold Index; split <;> simp
  | cons c s ih =>
    unfold Index
    split
    · simp
    · simp only
      split
      · simp
      · right; omega

theorem Index_nonneg_iff (s p : GoString) : 0 ≤ Index s p ↔ p <:+: s := by
  induction s with
  | nil =>
    unfold Index
    rw [List.infix_nil]
    cases p with
    | nil => simp [HasPrefix]
    | cons d p => simp [HasPrefix]
  | cons c s ih =>
    unfold Index
    rw [List.infix_cons_iff]
    by_cases h : HasPrefix (c :: s) p = true
    · simp only [h, if_true, le_refl, true_iff]
      exact Or.inl ((HasPrefix_iff _ _).1 h)
    · have h' : ¬ p <+: c :: s := fun hp => h ((HasPrefix_iff _ _).2 hp)
      simp only [h, if_false, Bool.false_eq_true]
      rw [← ih]
      constructor
      · intro hh
        right
        by_contra hneg
        have : Index s p < 0 := by omega
        simp [this] at hh
      · rintro (hp | hs)
        · exact absurd hp h'
        · have : ¬ Index s p < 0 := by omega
          simp only [this, if_false]; omega

theorem Contains_iff (s p : GoString) : Contains s p = true ↔ p <:+: s := by
  simp [Contains, Index_nonneg_iff]

theorem Contains_eq_false_iff (s p : GoString) : Contains s p = false ↔ ¬ p <:+: s := by
  rw [← Contains_iff]; simp

theorem Index_neg_iff (s p : GoString) : Index s p < 0 ↔ ¬ p <:+: s := by
  rw [← Index_nonneg_iff]; omega

theorem scanReplace_skip (old new : GoString) (k : Nat) (s : GoString) :
    scanReplace old new k s = scanReplace old new 0 (s.drop k) := by
  induction s generalizing k with
  | nil => simp [scanReplace]
  | cons c s ih =>
    cases k with
    | zero => simp
    | succ k => simp only [scanReplace, List.drop_succ_cons]; exact ih k

theorem scanReplace_nil (old new : GoString) (k : Nat) : scanReplace old new k [] = [] := by
  simp [scanReplace]

theorem scanReplace_at_match (old new : GoString) (s : GoString) (hold : old ≠ [])
    (h : HasPrefix s old = true) :
    scanReplace old new 0 s = new ++ scanReplace old new 0 (s.drop old.length) := by
  cases s with
  | nil =>
    cases old with
    | nil => exact absurd rfl hold
    | cons d p => simp [HasPrefix] at h
  | cons c s =>
    simp only [scanReplace, h, if_true]
    rw [scanReplace_skip]
    cases old with
    | nil => exact absurd rfl hold
    | cons d p => simp

theorem scanReplace_no_match (old new : GoString) (c : Byte) (s : GoString)
    (h : HasPrefix (c :: s) old = false) :
    scanReplace old new 0 (c :: s) = c :: scanReplace old new 0 s := by
  simp [scanReplace, h]

/-- What `Index` finds is where the scan first replaces. -/
theorem scanReplace_index (old new : GoString) (hold : old ≠ []) (s : GoString) :
    (Index s old < 0 → scanReplace old new 0 s = s) ∧
    (0 ≤ Index s old → scanReplace old new 0 s =
      s.take (Index s old).toNat ++ new ++
        scanReplace old new 0 (s.drop ((Index s old).toNat + old.length))) := by
  induction s with
  | nil =>
    have h0 : HasPrefix [] old = false := by
      cases old with
      | nil => exact absurd rfl hold
      | cons d p => rfl
    have hI : Index [] old = -1 := by simp [Index, h0]
    rw [hI]
    constructor
    · intro _; rfl
    · intro h; omega
  | cons c s ih =>
    by_cases h : HasPrefix (c :: s) old = true
    · have hI : Index (c :: s) old = 0 := by simp [Index, h]
      rw [hI]
      constructor
      · intro h'; omega
      · intro _
        rw [scanReplace_at_match old new _ hold h]
        simp
    · have h' : HasPrefix (c :: s) old = false := by simpa using h
      rw [scanReplace_no_match old new c s h']
      rcases Index_ge_neg_one s old with hr | hr
      · have hI : Index (c :: s) old = -1 := by
          rw [Index]; simp [h', hr]
        rw [hI]
        constructor
        · intro _
          rw [ih.1 (by omega)]
        · intro h''; omega
      · have hI : Index (c :: s) old = Index s old + 1 := by
          rw [Index]
          have : ¬ Index s old < 0 := by omega
          simp [h', this]
        rw [hI]
        constructor
        · intro h''; omega
        · intro _
          have e1 : (Index s old + 1).toNat = (Index s old).toNat + 1 := by omega
          rw [e1, ih.2 hr]
          simp [Nat.add_right_comm]

theorem replaceLoop_eq_scan (old new : GoString) (hold : old ≠ []) (n : Nat) (s : GoString)
    (hn : s.length ≤ n) : replaceLoop old new n s = scanReplace old new 0 s := by
  induction n generalizing s with
  | zero =>
    have : s = [] := List.length_eq_zero.1 (by omega)
    subst this
    simp [replaceLoop, scanReplace]
  | succ n ih =>
    have hlen : 0 < old.length := List.length_pos.2 hold
    rw [replaceLoop]
    by_cases h : Index s old < 0
    · simp only [h, if_true]
      exact ((scanReplace_index old new hold s).1 h).symm
    · simp only [h, if_false]
      rw [(scanReplace_index old new hold s).2 (by omega)]
      rw [ih]
      simp only [List.length_drop]
      omega

theorem ReplaceAll_eq_scan (s old new : GoString) (hold : old ≠ []) :
    ReplaceAll s old new = scanReplace old new 0 s :=
  replaceLoop_eq_scan old new hold _ s (le_refl _)

theorem HasPrefix_singleton (c d : Byte) (s : GoString) :
    HasPrefix (c :: s) [d] = decide (c = d) := by
  simp [HasPrefix]

theorem Index_singleton_of_not_mem (c : Byte) (s : GoString) (h : c ∉ s) :
    Index s [c] = -1 := by
  induction s with
  | nil => simp [Index, HasPrefix]
  | cons d s ih =>
    have hd : ¬ d = c := fun e => h (by simp [e])
    have hs : c ∉ s := fun e => h (List.mem_cons_of_mem _ e)
    rw [Index, HasPrefix_singleton]
    simp [hd, ih hs]

theorem Index_singleton_append (c : Byte) (a t : GoString) (h : c ∉ a) :
    Index (a ++ c :: t) [c] = a.length := by
  induction a with
  | nil => simp [Index, HasPrefix]
  | cons d a ih =>
    have hd : ¬ d = c := fun e => h (by simp [e])
    have ha : c ∉ a := fun e => h (List.mem_cons_of_mem _ e)
    rw [List.cons_append, Index, HasPrefix_singleton]
    have : ¬ ((a.length : Int) < 0) := by omega
    simp [hd, ih ha, this]

theorem splitLoop_fuel (sep : GoString) (hsep : sep ≠ []) (n m : Nat) (s : GoString)
    (hn : s.length ≤ n) (hm : s.length ≤ m) : splitLoop sep n s = splitLoop sep m s := by
  have hlen : 0 < sep.length := List.length_pos.2 hsep
  have hnil : ∀ k, splitLoop sep k [] = [[]] := by
    intro k
    cases k with
    | zero => rfl
    | succ k =>
      have : Index [] sep = -1 := by
        cases sep with
        | nil => exact absurd rfl hsep
        | cons d p => simp [Index, HasPrefix]
      simp [splitLoop, this]
  induction n generalizing m s with
  | zero =>
    have : s = [] := List.length_eq_zero.1 (by omega)
    subst this
    rw [hnil, hnil]
  | succ n ih =>
    cases m with
    | zero =>
      have : s = [] := List.length_eq_zero.1 (by omega)
      subst this
      rw [hnil, hnil]
    | succ m =>
      rw [splitLoop, splitLoop]
      by_cases h : Index s sep < 0
      · simp [h]
      · simp only [h, if_false]
        rw [ih m]
        · simp only [List.length_drop]; omega
        · simp only [List.length_drop]; omega

theorem Split_of_not_mem (c : Byte) (s : GoString) (h : c ∉ s) : Split s [c] = [s] := by
  unfold Split
  cases hs : s.length with
  | zero => rfl
  | succ n => simp [splitLoop, Index_singleton_of_not_mem c s h]

theorem Split_append_sep (c : Byte) (a t : GoString) (h : c ∉ a) :
    Split (a ++ c :: t) [c] = a :: Split t [c] := by
  unfold Split
  have hl : (a ++ c :: t).length = (a.length + t.length) + 1 := by simp; omega
  rw [hl, splitLoop, Index_singleton_append c a t h]
  have : ¬ ((a.length : Int) < 0) := by omega
  simp only [this, if_false, Int.toNat_ofNat, List.length_singleton]
  rw [List.take_left, List.drop_append, List.drop_one, List.tail_cons]
  rw [splitLoop_fuel [c] (by simp) _ t.length t (by omega) (le_refl _)]

/-- Every string is free of `c` or has a first `c`. -/
theorem exists_first_sep (c : Byte) (s : GoString) :
    c ∉ s ∨ ∃ a t, c ∉ a ∧ s = a ++ c :: t := by
  induction s with
  | nil => left; simp
  | cons d s ih =>
    by_cases hd : d = c
    · right; exact ⟨[], s, by simp, by simp [hd]⟩
    · rcases ih with h | ⟨a, t, ha, rfl⟩
      · left
        intro hm
        rcases List.mem_cons.1 hm with e | e
        · exact hd e.symm
        · exact h e
      · right
        refine ⟨d :: a, t, ?_, by simp⟩
        intro hm
        rcases List.mem_cons.1 hm with e | e
        · exact hd e.symm
        · exact ha e

theorem ReplaceAll_of_not_contains (s old new : GoString) (hold : old ≠ [])
    (h : Contains s old = false) : ReplaceAll s old new = s := by
  rw [ReplaceAll_eq_scan s old new hold]
  apply (scanReplace_index old new hold s).1
  rw [Index_neg_iff]
  exact (Contains_eq_false_iff s old).1 h

theorem ReplaceAll_of_contains (s old new : GoString) (hold : old ≠ [])
    (h : Contains s old = true) :
    ∃ a b, ReplaceAll s old new = a ++ new ++ b := by
  rw [ReplaceAll_eq_scan s old new hold]
  have h0 : 0 ≤ Index s old := (Index_nonneg_iff s old).2 ((Contains_iff s old).1 h)
  exact ⟨_, _, (scanReplace_index old new hold s).2 h0⟩

theorem grep_infix_grepWithColor (grep : GoString) : grep <:+: grepWithColor grep :=
  ⟨bytes "\x1b[32m", bytes "\x1b[0m", rfl⟩

/-- The test `strings.Contains(line, grep)` on the coloured line decides the same as on
the line read. -/
theorem Contains_ReplaceAll (s grep : GoString) (hg : grep ≠ []) :
    Contains (ReplaceAll s grep (grepWithColor grep)) grep = Contains s grep := by
  cases h : Contains s grep with
  | false => rw [ReplaceAll_of_not_contains s grep _ hg h, h]
  | true =>
    obtain ⟨a, b, hab⟩ := ReplaceAll_of_contains s grep (grepWithColor grep) hg h
    rw [hab, Contains_iff]
    exact (grep_infix_grepWithColor grep).trans (List.infix_append a _ b)

end KubectlSimple

namespace KubectlSimple

theorem not_mem_of_infix {c : Byte} {p s : GoString} (h : p <:+: s) (hc : c ∉ s) : c ∉ p :=
  fun hm => hc (h.subset hm)

theorem scanReplace_not_mem (c : Byte) (old new : GoString) (hnew : c ∉ new) (k : Nat)
    (s : GoString) (hs : c ∉ s) : c ∉ scanReplace old new k s := by
  induction s generalizing k with
  | nil => simp [scanReplace]
  | cons d s ih =>
    have hd : c ≠ d := fun e => hs (by simp [e])
    have hs' : c ∉ s := fun e => hs (List.mem_cons_of_mem _ e)
    cases k with
    | succ k => simpa [scanReplace] using ih k hs'
    | zero =>
      rw [scanReplace]
      split
      · simp only [List.mem_append, not_or]
        exact ⟨hnew, ih _ hs'⟩
      · simp only [List.mem_cons, not_or]
        exact ⟨hd, ih _ hs'⟩

theorem newline_not_mem_grepWithColor (grep : GoString) (h : newline ∉ grep) :
    newline ∉ grepWithColor grep := by
  unfold grepWithColor
  simp only [List.mem_append, not_or]
  exact ⟨⟨by decide, h⟩, by decide⟩

/-- A line without newline stays without newline when it is coloured. -/
theorem newline_not_mem_ReplaceAll (s grep : GoString) (hg : grep ≠ [])
    (hs : newline ∉ s) : newline ∉ ReplaceAll s grep (grepWithColor grep) := by
  cases h : Contains s grep with
  | false => rw [ReplaceAll_of_not_contains s grep _ hg h]; exact hs
  | true =>
    rw [ReplaceAll_eq_scan s grep _ hg]
    have hp : newline ∉ grep := not_mem_of_infix ((Contains_iff s grep).1 h) hs
    exact scanReplace_not_mem newline grep _ (newline_not_mem_grepWithColor grep hp) 0 s hs

theorem ne_nil_of_Contains (s grep : GoString) (hg : grep ≠ []) (h : Contains s grep = true) :
    s ≠ [] := by
  rintro rfl
  rw [Contains_iff, List.infix_nil] at h
  exact hg h

theorem byteAt_last (s : GoString) (hs : s ≠ []) :
    byteAt s ((s.length : Int) - 1) = some (s.getLast hs) := by
  have hl : 0 < s.length := List.length_pos.2 hs
  unfold byteAt
  have h1 : (0 : Int) ≤ (s.length : Int) - 1 ∧ (s.length : Int) - 1 < s.length := by omega
  rw [if_pos h1]
  have h2 : ((s.length : Int) - 1).toNat = s.length - 1 := by omega
  rw [h2, List.getLast_eq_getElem]
  exact List.getElem?_eq_getElem _

theorem byteAt_last_ne_newline (s : GoString) (hs : s ≠ []) (hn : newline ∉ s) :
    (byteAt s ((s.length : Int) - 1)).map (fun b => decide (b ≠ newline)) = some true := by
  rw [byteAt_last s hs]
  have : s.getLast hs ≠ newline := fun e => hn (e ▸ List.getLast_mem hs)
  simp [this]

theorem continuesLastLine_eq (i : Nat) (lastLine : GoString) (hn : newline ∉ lastLine) :
    continuesLastLine i lastLine = some (decide (i = 0 ∧ lastLine ≠ [])) := by
  unfold continuesLastLine
  by_cases h : i = 0 ∧ lastLine.length > 0
  · have hne : lastLine ≠ [] := List.length_pos.1 h.2
    rw [if_pos h, byteAt_last_ne_newline lastLine hne hn]
    simp [h.1, hne]
  · rw [if_neg h]
    have : ¬ (i = 0 ∧ lastLine ≠ []) := fun ⟨a, b⟩ => h ⟨a, List.length_pos.2 b⟩
    simp [this]

theorem endsUnterminated_eq (n i : Nat) (line : GoString) (hne : line ≠ [])
    (hn : newline ∉ line) : endsUnterminated n i line = some (decide (i = n - 1)) := by
  unfold endsUnterminated
  by_cases h : i = n - 1
  · rw [if_pos h, byteAt_last_ne_newline line hne hn]; simp [h]
  · rw [if_neg h]; simp [h]

/-! ## The only-matching loop -/

/-- One iteration of the only-matching loop, for a line and a `lastLine` without
newline: it does not panic, and this is the state it leaves. -/
theorem onlyMatchLine_eq (grep : GoString) (hg : grep ≠ []) (n i : Nat) (e : GoString)
    (st : State) (he : newline ∉ e) (hl : newline ∉ st.lastLine) :
    onlyMatchLine grep n i e st = some
      { lastLine := if i = n - 1 then ReplaceAll e grep (grepWithColor grep) else st.lastLine
        lastMatching := (Contains e grep && decide (i = n - 1)) ||
          (decide (i ≠ 0) && st.lastMatching)
        stdout := st.stdout ++ lineOutput grep n i e st } := by
  obtain ⟨ll, lm, out⟩ := st
  simp only at hl
  have hline : newline ∉ ReplaceAll e grep (grepWithColor grep) :=
    newline_not_mem_ReplaceAll e grep hg he
  have hcl : ∀ j, continuesLastLine j ll = some (decide (j = 0 ∧ ll ≠ [])) :=
    fun j => continuesLastLine_eq j ll hl
  unfold onlyMatchLine lineOutput
  simp only [Contains_ReplaceAll e grep hg]
  cases hc : Contains e grep with
  | false =>
    by_cases h0 : i = 0 <;> by_cases hm : lm = true <;> by_cases hn : i = n - 1 <;>
      simp [h0, hm, hn, State.print, bind, pure] <;> simp_all
  | true =>
    have hne : ReplaceAll e grep (grepWithColor grep) ≠ [] :=
      ne_nil_of_Contains _ grep hg (by rw [Contains_ReplaceAll e grep hg, hc])
    have heu : ∀ m j, endsUnterminated m j (ReplaceAll e grep (grepWithColor grep)) =
        some (decide (j = m - 1)) :=
      fun m j => endsUnterminated_eq m j _ hne hline
    by_cases h0 : i = 0 <;> by_cases hm : lm = true <;> by_cases hn : i = n - 1 <;>
      by_cases hll : ll = [] <;>
      simp [h0, hm, hn, hll, State.print, bind, pure, hcl, heu] <;> simp_all

/-- Induction along the newlines of a string. -/
theorem newline_induction (P : GoString → Prop) (h1 : ∀ s, newline ∉ s → P s)
    (h2 : ∀ a t, newline ∉ a → P t → P (a ++ newline :: t)) : ∀ s, P s := by
  have key : ∀ n (s : GoString), s.length = n → P s := by
    intro n
    induction n using Nat.strong_induction_on with
    | _ n ih =>
      intro s hn
      rcases exists_first_sep newline s with h | ⟨a, t, ha, rfl⟩
      · exact h1 s h
      · apply h2 a t ha
        apply ih t.length _ t rfl
        rw [← hn]; simp; omega
  exact fun s => key s.length s rfl

theorem Split_ne_nil (s : GoString) : Split s [newline] ≠ [] := by
  rcases exists_first_sep newline s with h | ⟨a, t, ha, rfl⟩
  · rw [Split_of_not_mem newline s h]; simp
  · rw [Split_append_sep newline a t ha]; simp

theorem newline_not_mem_of_mem_Split (s : GoString) :
    ∀ e ∈ Split s [newline], newline ∉ e := by
  induction s using newline_induction with
  | h1 s h => rw [Split_of_not_mem newline s h]; simpa using h
  | h2 a t ha ih =>
    rw [Split_append_sep newline a t ha]
    intro e he
    rcases List.mem_cons.1 he with rfl | he
    · exact ha
    · exact ih e he

theorem infix_of_mem_Split (s : GoString) : ∀ e ∈ Split s [newline], e <:+: s := by
  induction s using newline_induction with
  | h1 s h => rw [Split_of_not_mem newline s h]; simp
  | h2 a t ha ih =>
    rw [Split_append_sep newline a t ha]
    intro e he
    rcases List.mem_cons.1 he with rfl | he
    · exact List.infix_append' [] e (newline :: t)
    · exact (ih e he).trans ⟨a ++ [newline], [], by simp⟩

theorem Split_append_newline (s : GoString) :
    Split (s ++ [newline]) [newline] = Split s [newline] ++ [[]] := by
  induction s using newline_induction with
  | h1 s h =>
    rw [Split_append_sep newline s [] h, Split_of_not_mem newline s h]
    rfl
  | h2 a t ha ih =>
    rw [List.append_assoc, List.cons_append, Split_append_sep newline a _ ha, ih,
      Split_append_sep newline a t ha]
    rfl

theorem onlyMatchLoop_append (grep : GoString) (n : Nat) (l1 l2 : List GoString) (i : Nat)
    (st : State) :
    onlyMatchLoop grep n i (l1 ++ l2) st =
      (onlyMatchLoop grep n i l1 st).bind (onlyMatchLoop grep n (i + l1.length) l2) := by
  induction l1 generalizing i st with
  | nil => simp [onlyMatchLoop]
  | cons e l1 ih =>
    simp only [List.cons_append, onlyMatchLoop, List.length_cons]
    cases onlyMatchLine grep n i e st with
    | none => rfl
    | some st1 =>
      show onlyMatchLoop grep n (i + 1) (l1 ++ l2) st1 = _
      rw [ih, show i + 1 + l1.length = i + (l1.length + 1) by omega]

theorem expectedOnlyMatching_append (grep : GoString) (l1 l2 : List GoString) :
    expectedOnlyMatching grep (l1 ++ l2) =
      expectedOnlyMatching grep l1 ++ expectedOnlyMatching grep l2 := by
  induction l1 with
  | nil => rfl
  | cons e l1 ih => simp [expectedOnlyMatching, ih]

/-- The only-matching loop over lines none of which is the last of the split, from a
state with no pending fragment. -/
theorem onlyMatchLoop_quiet (grep : GoString) (hg : grep ≠ []) (n : Nat)
    (ls : List GoString) (i : Nat) (out : GoString)
    (hls : ∀ e ∈ ls, newline ∉ e) (hi : i + ls.length ≤ n - 1) :
    onlyMatchLoop grep n i ls { lastLine := [], lastMatching := false, stdout := out } =
      some { lastLine := [], lastMatching := false,
             stdout := out ++ expectedOnlyMatching grep ls } := by
  induction ls generalizing i out with
  | nil => simp [onlyMatchLoop, expectedOnlyMatching]
  | cons e ls ih =>
    have he : newline ∉ e := hls e (by simp)
    have hne : i ≠ n - 1 := by simp at hi; omega
    have hstep : onlyMatchLine grep n i e
        { lastLine := [], lastMatching := false, stdout := out } =
        some { lastLine := [], lastMatching := false,
               stdout := out ++ (if Contains e grep then
                 ReplaceAll e grep (grepWithColor grep) ++ [newline] else []) } := by
      rw [onlyMatchLine_eq grep hg n i e _ he (by simp)]
      cases hc : Contains e grep <;> simp [lineOutput, hne, hc]
    rw [onlyMatchLoop, hstep]
    simp only
    rw [ih (i + 1) _ (fun x hx => hls x (List.mem_cons_of_mem _ hx)) (by simp at hi; omega)]
    simp [expectedOnlyMatching]

theorem linesOf_append_newline (body : GoString) :
    linesOf (body ++ [newline]) = Split body [newline] := by
  unfold linesOf
  rw [Split_append_newline, List.dropLast_concat]

/-- What `linesOf` is: the lines of a chunk that ends with a newline have no newline and,
each followed by a newline, make up the chunk. -/
theorem linesOf_spec (body : GoString) :
    (∀ l ∈ linesOf (body ++ [newline]), newline ∉ l) ∧
      (linesOf (body ++ [newline])).flatMap (fun l => l ++ [newline]) = body ++ [newline] := by
  rw [linesOf_append_newline]
  refine ⟨newline_not_mem_of_mem_Split body, ?_⟩
  induction body using newline_induction with
  | h1 s h => rw [Split_of_not_mem newline s h]; simp
  | h2 a t ha ih => rw [Split_append_sep newline a t ha]; simp [ih]

theorem Contains_nil_of_ne (grep : GoString) (hg : grep ≠ []) : Contains [] grep = false := by
  rw [Contains_eq_false_iff, List.infix_nil]; exact hg

theorem ReplaceAll_nil (old new : GoString) : ReplaceAll [] old new = [] := rfl

/-- A chunk that ends with a newline, processed from a state with no pending fragment. -/
theorem processMessage_whole_lines (grep : GoString) (hg : grep ≠ []) (body out : GoString) :
    processMessage grep true (body ++ [newline])
        { lastLine := [], lastMatching := false, stdout := out } =
      some { lastLine := [], lastMatching := false,
             stdout := out ++ expectedOnlyMatching grep (linesOf (body ++ [newline])) } := by
  have hlen : grep.length ≠ 0 := fun h => hg (List.length_eq_zero.1 h)
  unfold processMessage linesOf
  rw [if_neg hlen, Split_append_newline]
  simp only [if_true, List.dropLast_concat]
  rw [onlyMatchLoop_append, onlyMatchLoop_quiet grep hg _ _ 0 out
    (newline_not_mem_of_mem_Split body) (by simp)]
  simp only [Option.bind, onlyMatchLoop, Nat.zero_add]
  rw [onlyMatchLine_eq grep hg _ _ [] _ (by simp) (by simp)]
  simp [lineOutput, Contains_nil_of_ne grep hg, ReplaceAll_nil]

/-- Reads that deliver bytes without error are processed one after the other. -/
theorem pullLoop_messages (grep : GoString) (follow onlyMatch : Bool) (ms : List GoString)
    (rest : List ReadResult) (st st1 : State) (k : Nat) (hms : ∀ m ∈ ms, m ≠ [])
    (h : processMessages grep onlyMatch ms st = some st1) :
    pullLoop grep follow onlyMatch (ms.map (fun m => ⟨m, none⟩) ++ rest) st k =
      pullLoop grep follow onlyMatch rest st1 (k + ms.length) := by
  induction ms generalizing st k with
  | nil =>
    simp only [processMessages, Option.some.injEq] at h
    subst h
    simp
  | cons m ms ih =>
    have hm : m.length ≠ 0 := fun e => hms m (by simp) (List.length_eq_zero.1 e)
    rw [processMessages] at h
    cases hp : processMessage grep onlyMatch m st with
    | none => rw [hp] at h; simp at h
    | some st2 =>
      rw [hp] at h
      rw [List.map_cons, List.cons_append, pullLoop]
      simp only [hm, if_false, hp, reduceCtorEq]
      rw [ih st2 (k + 1) (fun x hx => hms x (List.mem_cons_of_mem _ hx)) h,
        List.length_cons, show k + 1 + ms.length = k + (ms.length + 1) by omega]

theorem processMessages_whole_lines (grep : GoString) (hg : grep ≠ [])
    (chunks : List GoString) (hc : ∀ c ∈ chunks, c.getLast? = some newline) (out : GoString) :
    processMessages grep true chunks { lastLine := [], lastMatching := false, stdout := out } =
      some { lastLine := [], lastMatching := false,
             stdout := out ++ expectedOnlyMatching grep (chunks.flatMap linesOf) } := by
  induction chunks generalizing out with
  | nil => simp [processMessages, expectedOnlyMatching]
  | cons c chunks ih =>
    obtain ⟨body, rfl⟩ := List.getLast?_eq_some_iff.1 (hc c (by simp))
    rw [processMessages, processMessage_whole_lines grep hg body out]
    simp only
    rw [ih (fun x hx => hc x (List.mem_cons_of_mem _ hx))]
    simp [expectedOnlyMatching_append]

/-- The variables `lastLine` and `lastMatching` after the only-matching loop has run to
the end of the split. -/
theorem onlyMatchLoop_state (grep : GoString) (hg : grep ≠ []) (n : Nat)
    (ls : List GoString) (hne : ls ≠ []) (i : Nat) (st : State)
    (hl : newline ∉ st.lastLine) (hls : ∀ e ∈ ls, newline ∉ e) (hi : i + ls.length = n) :
    ∃ st1, onlyMatchLoop grep n i ls st = some st1 ∧
      st1.lastLine = ReplaceAll (ls.getLast hne) grep (grepWithColor grep) ∧
      st1.lastMatching = (Contains (ls.getLast hne) grep || (decide (i ≠ 0) && st.lastMatching)) := by
  induction ls generalizing i st with
  | nil => exact absurd rfl hne
  | cons e ls ih =>
    have he : newline ∉ e := hls e (by simp)
    rw [onlyMatchLoop, onlyMatchLine_eq grep hg n i e st he hl]
    cases ls with
    | nil =>
      have hi' : i = n - 1 := by simp at hi; omega
      refine ⟨_, rfl, ?_, ?_⟩
      · simp [hi']
      · simp [hi']
    | cons e' ls =>
      have hi' : i ≠ n - 1 := by simp at hi; omega
      obtain ⟨st1, h1, h2, h3⟩ := ih (List.cons_ne_nil e' ls) (i + 1)
        { lastLine := if i = n - 1 then ReplaceAll e grep (grepWithColor grep) else st.lastLine
          lastMatching := (Contains e grep && decide (i = n - 1)) ||
            (decide (i ≠ 0) && st.lastMatching)
          stdout := st.stdout ++ lineOutput grep n i e st }
        (by simp only [hi', if_false]; exact hl)
        (fun x hx => hls x (List.mem_cons_of_mem _ hx))
        (by simp at hi ⊢; omega)
      refine ⟨st1, h1, ?_, ?_⟩
      · rw [h2]; rfl
      · rw [h3]; simp [hi']

/-- The only-matching loop prints nothing when no fragment is pending with a match and
no line contains the phrase. -/
theorem onlyMatchLoop_no_match (grep : GoString) (hg : grep ≠ []) (n : Nat)
    (ls : List GoString) (i : Nat) (st : State) (hm : st.lastMatching = false)
    (hl : newline ∉ st.lastLine)
    (hls : ∀ e ∈ ls, newline ∉ e ∧ Contains e grep = false) :
    ∃ st1, onlyMatchLoop grep n i ls st = some st1 ∧ st1.stdout = st.stdout ∧
      st1.lastMatching = false ∧ newline ∉ st1.lastLine := by
  induction ls generalizing i st with
  | nil => exact ⟨st, rfl, rfl, hm, hl⟩
  | cons e ls ih =>
    obtain ⟨he, hc⟩ := hls e (by simp)
    rw [onlyMatchLoop, onlyMatchLine_eq grep hg n i e st he hl]
    obtain ⟨st1, h1, h2, h3, h4⟩ := ih (i + 1)
      { lastLine := if i = n - 1 then ReplaceAll e grep (grepWithColor grep) else st.lastLine
        lastMatching := (Contains e grep && decide (i = n - 1)) ||
          (decide (i ≠ 0) && st.lastMatching)
        stdout := st.stdout ++ lineOutput grep n i e st }
      (by simp [hc, hm])
      (by
        simp only
        split
        · exact newline_not_mem_ReplaceAll e grep hg he
        · exact hl)
      (fun x hx => hls x (List.mem_cons_of_mem _ hx))
    refine ⟨st1, h1, ?_, h3, h4⟩
    rw [h2]
    simp [lineOutput, hc, hm]

/-- One chunk in only-matching mode, from a state whose `lastLine` has no newline: no
panic, and the variables it leaves. -/
theorem processMessage_state (grep : GoString) (hg : grep ≠ []) (m : GoString) (st : State)
    (hl : newline ∉ st.lastLine) :
    ∃ st1, processMessage grep true m st = some st1 ∧
      st1.lastLine = ReplaceAll ((Split m [newline]).getLast (Split_ne_nil m)) grep
        (grepWithColor grep) ∧
      st1.lastMatching = Contains ((Split m [newline]).getLast (Split_ne_nil m)) grep ∧
      newline ∉ st1.lastLine := by
  have hlen : grep.length ≠ 0 := fun h => hg (List.length_eq_zero.1 h)
  obtain ⟨st1, h1, h2, h3⟩ := onlyMatchLoop_state grep hg (Split m [newline]).length
    (Split m [newline]) (Split_ne_nil m) 0 st hl (newline_not_mem_of_mem_Split m) (by simp)
  refine ⟨st1, ?_, h2, ?_, ?_⟩
  · unfold processMessage
    rw [if_neg hlen]
    simpa using h1
  · rw [h3]; simp
  · rw [h2]
    exact newline_not_mem_ReplaceAll _ grep hg
      (newline_not_mem_of_mem_Split m _ (List.getLast_mem _))

/-- One chunk in only-matching mode prints nothing when no match is pending and the
chunk does not contain the phrase. -/
theorem processMessage_no_match (grep : GoString) (hg : grep ≠ []) (m : GoString)
    (st : State) (hm : st.lastMatching = false) (hl : newline ∉ st.lastLine)
    (hls : ∀ e ∈ Split m [newline], Contains e grep = false) :
    ∃ st1, processMessage grep true m st = some st1 ∧ st1.stdout = st.stdout := by
  have hlen : grep.length ≠ 0 := fun h => hg (List.length_eq_zero.1 h)
  obtain ⟨st1, h1, h2, _, _⟩ := onlyMatchLoop_no_match grep hg (Split m [newline]).length
    (Split m [newline]) 0 st hm hl
    (fun e he => ⟨newline_not_mem_of_mem_Split m e he, hls e he⟩)
  refine ⟨st1, ?_, h2⟩
  unfold processMessage
  rw [if_neg hlen]
  simpa using h1

theorem Contains_false_of_infix {e s grep : GoString} (h : e <:+: s)
    (hs : Contains s grep = false) : Contains e grep = false := by
  rw [Contains_eq_false_iff] at hs ⊢
  exact fun hg => hs (hg.trans h)

/-- Every state reached in only-matching mode holds a `lastLine` without newline. -/
theorem processMessages_reach (grep : GoString) (hg : grep ≠ []) (ms : List GoString)
    (st : State) (hl : newline ∉ st.lastLine) :
    ∃ st1, processMessages grep true ms st = some st1 ∧ newline ∉ st1.lastLine := by
  induction ms generalizing st with
  | nil => exact ⟨st, rfl, hl⟩
  | cons m ms ih =>
    obtain ⟨st1, h1, _, _, h4⟩ := processMessage_state grep hg m st hl
    obtain ⟨st2, h5, h6⟩ := ih st1 h4
    exact ⟨st2, by rw [processMessages, h1]; exact h5, h6⟩

theorem getLast?_ne_of_not_mem {c : Byte} {s : GoString} (h : c ∉ s) :
    s.getLast? ≠ some c := by
  intro e
  obtain ⟨ys, rfl⟩ := List.getLast?_eq_some_iff.1 e
  exact h (by simp)

/-! ## The loop over all lines and the read loop -/

theorem HasPrefix_append_newline (a t p : GoString) (hp : newline ∉ p) :
    HasPrefix (a ++ newline :: t) p = HasPrefix a p := by
  induction p generalizing a with
  | nil => simp [HasPrefix]
  | cons d p ih =>
    have hd : ¬ newline = d := fun e => hp (by simp [e])
    have hp' : newline ∉ p := fun e => hp (List.mem_cons_of_mem _ e)
    cases a with
    | nil => simp [HasPrefix, hd]
    | cons c a => simp [HasPrefix, ih a hp']

/-- A phrase without newline never matches across a newline: the scan of a text is the
scan of its first line, the newline, and the scan of the rest. -/
theorem scanReplace_append_newline (grep new : GoString) (hg : grep ≠ [])
    (hn : newline ∉ grep) (a t : GoString) (k : Nat) (hk : k ≤ a.length) :
    scanReplace grep new k (a ++ newline :: t) =
      scanReplace grep new k a ++ newline :: scanReplace grep new 0 t := by
  induction a generalizing k with
  | nil =>
    have hk0 : k = 0 := by simpa using hk
    subst hk0
    have h := HasPrefix_append_newline [] t grep hn
    have h0 : HasPrefix [] grep = false := by
      cases grep with
      | nil => exact absurd rfl hg
      | cons d p => rfl
    rw [h0] at h
    simp only [List.nil_append] at h ⊢
    rw [scanReplace_no_match grep new newline t h]
    rfl
  | cons c a ih =>
    cases k with
    | succ k =>
      simp only [List.cons_append, scanReplace]
      exact ih k (by simpa using hk)
    | zero =>
      have h := HasPrefix_append_newline (c :: a) t grep hn
      simp only [List.cons_append] at h ⊢
      simp only [scanReplace, h]
      by_cases hp : HasPrefix (c :: a) grep = true
      · have hle : grep.length ≤ (c :: a).length := ((HasPrefix_iff _ _).1 hp).length_le
        simp only [hp, if_true]
        rw [ih (grep.length - 1) (by simp at hle; omega)]
        simp
      · simp only [hp, if_false, Bool.false_eq_true]
        rw [ih 0 (Nat.zero_le _)]
        simp

theorem allLinesLoop_eq (grep : GoString) (n : Nat) (ls : List GoString) (i : Nat)
    (st : State) (hi : i + ls.length = n) :
    allLinesLoop grep n i ls st = st.print (joinColoured grep ls) := by
  induction ls generalizing i st with
  | nil => simp [allLinesLoop, joinColoured, State.print]
  | cons e ls ih =>
    cases ls with
    | nil =>
      have hi' : i = n - 1 := by simp at hi; omega
      simp [allLinesLoop, allLinesLine, joinColoured, hi']
    | cons e' ls =>
      have hi' : i ≠ n - 1 := by simp at hi; omega
      rw [allLinesLoop, ih (i + 1) _ (by simp at hi ⊢; omega)]
      simp [allLinesLine, joinColoured, hi', State.print]

theorem joinColoured_Split (grep : GoString) (hg : grep ≠ []) (hn : newline ∉ grep)
    (s : GoString) :
    joinColoured grep (Split s [newline]) = scanReplace grep (grepWithColor grep) 0 s := by
  induction s using newline_induction with
  | h1 s h =>
    rw [Split_of_not_mem newline s h, joinColoured, ReplaceAll_eq_scan s grep _ hg]
  | h2 a t ha ih =>
    rw [Split_append_sep newline a t ha]
    obtain ⟨e, rest, hsp⟩ := List.exists_cons_of_ne_nil (Split_ne_nil t)
    rw [hsp] at ih ⊢
    rw [joinColoured, ih, ReplaceAll_eq_scan a grep _ hg,
      scanReplace_append_newline grep _ hg hn a t 0 (Nat.zero_le _)]
    simp

/-- With an empty phrase, reads without error are printed as they are; a zero-length
read is skipped when following. -/
theorem pullLoop_passthrough (follow onlyMatch : Bool) (rs rest : List ReadResult)
    (st : State) (k : Nat)
    (h : ∀ r ∈ rs, r.err = none ∧ (r.data = [] → follow = true)) :
    pullLoop [] follow onlyMatch (rs ++ rest) st k =
      pullLoop [] follow onlyMatch rest (st.print (rs.map (fun r => r.data)).flatten)
        (k + rs.length) := by
  induction rs generalizing st k with
  | nil => simp [State.print]
  | cons r rs ih =>
    obtain ⟨he, hd⟩ := h r (by simp)
    have ih' := fun st k => ih st k (fun x hx => h x (List.mem_cons_of_mem _ hx))
    rw [List.cons_append, pullLoop]
    by_cases h0 : r.data.length = 0
    · have hnil : r.data = [] := List.length_eq_zero.1 h0
      have hf := hd hnil
      subst hf
      simp only [h0, if_true, Bool.not_true, Bool.false_eq_true, if_false]
      rw [ih', List.length_cons, show k + 1 + rs.length = k + (rs.length + 1) by omega]
      simp [hnil]
    · simp only [h0, if_false, he, reduceCtorEq, processMessage, List.length_nil, if_true]
      rw [ih', List.length_cons, show k + 1 + rs.length = k + (rs.length + 1) by omega]
      simp [State.print]

/-! ## The properties of the specification -/

/-- C1 (as amended): pass-through with an empty phrase. For reads that return without
error (a zero-length one only when following) and both values of `onlyMatch`, what
`GetPodLogs` has printed when these reads are consumed is the concatenation of the bytes
they delivered; when the loop then ends at a zero-length read (not following),
`GetPodLogs` prints one more `"\n"` (`fmt.Println`) and returns `nil`. -/
theorem passthrough_then_newline (follow onlyMatch : Bool) (rs : List ReadResult)
    (h : ∀ r ∈ rs, r.err = none ∧ (r.data = [] → follow = true)) :
    GetPodLogs [] follow onlyMatch (.ok rs) =
      { stdout := (rs.map (fun r => r.data)).flatten, reads := rs.length,
        outcome := .reading } ∧
    ∀ fin : ReadResult, fin.data = [] → follow = false →
      GetPodLogs [] follow onlyMatch (.ok (rs ++ [fin])) =
        { stdout := (rs.map (fun r => r.data)).flatten ++ [newline], reads := rs.length + 1,
          outcome := .returned none } := by
  constructor
  · have := pullLoop_passthrough follow onlyMatch rs [] State.init 0 h
    rw [List.append_nil] at this
    unfold GetPodLogs
    simp only
    rw [this]
    simp [pullLoop, State.print, State.init]
  · intro fin hfin hf
    unfold GetPodLogs
    simp only
    rw [pullLoop_passthrough follow onlyMatch rs [fin] State.init 0 h]
    simp [pullLoop, hfin, hf, finish, State.print, State.init]

/-- C1 at the single chunk `"line1\nline2\n"`: the output is `"line1\nline2\n\n"`. -/
theorem passthrough_then_newline_witness :
    GetPodLogs [] false true (.ok ([⟨bytes "line1\nline2\n", none⟩] ++ [⟨[], some .EOF⟩])) =
      { stdout := bytes "line1\nline2\n\n", reads := 2, outcome := .returned none } :=
  ((passthrough_then_newline false true [⟨bytes "line1\nline2\n", none⟩]
    (by decide)).2 ⟨[], some .EOF⟩ rfl rfl).trans (by decide)

/-- C1 as stated fails: the single chunk `"line1\nline2\n"`, followed by the end of the
stream, produces `"line1\nline2\n\n"`, which is not the concatenation of the bytes
delivered: `fmt.Println` adds a newline. -/
theorem passthrough_counterexample :
    (GetPodLogs [] false false
        (.ok [⟨bytes "line1\nline2\n", none⟩, ⟨[], some .EOF⟩])).stdout =
      bytes "line1\nline2\n\n" ∧
    (GetPodLogs [] false false
        (.ok [⟨bytes "line1\nline2\n", none⟩, ⟨[], some .EOF⟩])).stdout ≠
      ([(⟨bytes "line1\nline2\n", none⟩ : ReadResult), ⟨[], some .EOF⟩].map
        (fun r => r.data)).flatten := by
  decide

/-- C2: Only-matching filter on whole lines. For a non-empty phrase and chunks that each
end with a newline, processing the chunks from the initial state with `onlyMatch = true`
emits, in source order, the coloured line followed by `"\n"` for exactly the lines that
contain the phrase, and leaves the state as it was initially (`lastLine = ""`,
`lastMatching = false`); as every prefix of the chunks is such a list of chunks, this is
the state after each chunk. `GetPodLogs` on a stream delivering these chunks and then a
zero-length read (not following) prints this text and the newline of `fmt.Println`. -/
theorem only_matching_whole_lines (grep : GoString) (hg : grep ≠ [])
    (chunks : List GoString) (hc : ∀ c ∈ chunks, c.getLast? = some newline) :
    processMessages grep true chunks State.init =
      some { lastLine := [], lastMatching := false,
             stdout := expectedOnlyMatching grep (chunks.flatMap linesOf) } ∧
    GetPodLogs grep false true
        (.ok (chunks.map (fun c => ⟨c, none⟩) ++ [⟨[], none⟩])) =
      { stdout := expectedOnlyMatching grep (chunks.flatMap linesOf) ++ [newline],
        reads := chunks.length + 1, outcome := .returned none } := by
  have h1 := processMessages_whole_lines grep hg chunks hc []
  simp only [List.nil_append] at h1
  refine ⟨h1, ?_⟩
  have hne : ∀ m ∈ chunks, m ≠ [] := by
    intro m hm e
    have := hc m hm
    rw [e] at this
    simp at this
  unfold GetPodLogs
  simp only
  rw [pullLoop_messages grep false true chunks _ State.init _ 0 hne h1]
  simp [pullLoop, finish]

/-- C2, the scenarios of the specification: the chunks `"foo bar\n"`, `"baz foo\n"` with
the phrase `"foo"` emit both lines coloured, in order; the chunk `"no match here\n"` with
the phrase `"xyz"` emits nothing. -/
theorem only_matching_whole_lines_witness :
    (processMessages (bytes "foo") true [bytes "foo bar\n", bytes "baz foo\n"] State.init =
      some { lastLine := [], lastMatching := false,
             stdout := bytes "\x1b[32mfoo\x1b[0m bar\nbaz \x1b[32mfoo\x1b[0m\n" }) ∧
    (processMessages (bytes "xyz") true [bytes "no match here\n"] State.init =
      some { lastLine := [], lastMatching := false, stdout := [] }) := by
  have h1 := (only_matching_whole_lines (bytes "foo") (by decide)
    [bytes "foo bar\n", bytes "baz foo\n"] (by decide)).1
  have h2 := (only_matching_whole_lines (bytes "xyz") (by decide)
    [bytes "no match here\n"] (by decide)).1
  refine ⟨h1.trans ?_, h2.trans ?_⟩ <;> decide

/-- C3 (as amended): a phrase split across a chunk boundary is not detected. For every
phrase `p = p1 ++ p2` with `p1`, `p2` non-empty and newline-free `x`, `y` such that
neither `x ++ p1` nor `p2 ++ y` contains `p`, processing the chunks `x ++ p1` and
`p2 ++ y ++ "\n"` with `onlyMatch = true` emits nothing and ends in the initial state:
the reassembled line is emitted zero times. -/
theorem split_phrase_not_detected (p1 p2 x y : GoString) (h1 : p1 ≠ []) (_h2 : p2 ≠ [])
    (_hx : newline ∉ x) (_hy : newline ∉ y)
    (hc1 : Contains (x ++ p1) (p1 ++ p2) = false)
    (hc2 : Contains (p2 ++ y) (p1 ++ p2) = false) :
    processMessages (p1 ++ p2) true [x ++ p1, p2 ++ y ++ [newline]] State.init =
      some State.init := by
  have hg : p1 ++ p2 ≠ [] := by simp [h1]
  obtain ⟨st1, e1, _, m1, l1⟩ := processMessage_state (p1 ++ p2) hg (x ++ p1) State.init
    (by simp [State.init])
  have hno1 : ∀ e ∈ Split (x ++ p1) [newline], Contains e (p1 ++ p2) = false :=
    fun e he => Contains_false_of_infix (infix_of_mem_Split _ e he) hc1
  obtain ⟨st1', e1', o1⟩ := processMessage_no_match (p1 ++ p2) hg (x ++ p1) State.init rfl
    (by simp [State.init]) hno1
  have hst : st1' = st1 := Option.some.inj (e1'.symm.trans e1)
  subst hst
  have hm1 : st1'.lastMatching = false := by
    rw [m1]; exact hno1 _ (List.getLast_mem _)
  have hsplit : Split (p2 ++ y ++ [newline]) [newline] = Split (p2 ++ y) [newline] ++ [[]] :=
    Split_append_newline (p2 ++ y)
  have hno2 : ∀ e ∈ Split (p2 ++ y ++ [newline]) [newline], Contains e (p1 ++ p2) = false := by
    intro e he
    rw [hsplit, List.mem_append] at he
    rcases he with he | he
    · exact Contains_false_of_infix (infix_of_mem_Split _ e he) hc2
    · rw [List.mem_singleton] at he
      rw [he]; exact Contains_nil_of_ne _ hg
  have hlast : (Split (p2 ++ y ++ [newline]) [newline]).getLast (Split_ne_nil _) = [] := by
    have h := List.getLast?_eq_getLast _ (Split_ne_nil (p2 ++ y ++ [newline]))
    have h' : (Split (p2 ++ y ++ [newline]) [newline]).getLast? = some [] := by
      rw [hsplit, List.getLast?_concat]
    exact (Option.some.inj (h'.symm.trans h)).symm
  obtain ⟨st2, e2, ll2, m2, _⟩ := processMessage_state (p1 ++ p2) hg (p2 ++ y ++ [newline])
    st1' l1
  obtain ⟨st2', e2', o2⟩ := processMessage_no_match (p1 ++ p2) hg (p2 ++ y ++ [newline])
    st1' hm1 l1 hno2
  have hst : st2' = st2 := Option.some.inj (e2'.symm.trans e2)
  subst hst
  rw [hlast] at ll2 m2
  simp only [processMessages, e1, e2]
  obtain ⟨a, b, c⟩ := st2'
  simp only at ll2 m2 o2
  rw [ll2, m2, o2, o1, ReplaceAll_nil, Contains_nil_of_ne _ hg]
  rfl

/-- C3, the scenario of the specification: the phrase `"ERROR"` split as `"...ER"` and
`"ROR...\n"`. -/
theorem split_phrase_not_detected_witness :
    processMessages (bytes "ER" ++ bytes "ROR") true
        [bytes "..." ++ bytes "ER", bytes "ROR" ++ bytes "..." ++ [newline]] State.init =
      some State.init :=
  split_phrase_not_detected (bytes "ER") (bytes "ROR") (bytes "...") (bytes "...")
    (by decide) (by decide) (by decide) (by decide) (by decide) (by decide)

/-- C3 as stated fails: with the phrase `"ERROR"` and the chunks `"...ER"` and
`"ROR...\n"` only-matching mode prints nothing, so the reassembled line is emitted zero
times, not once. -/
theorem boundary_split_counterexample :
    ∃ st, processMessages (bytes "ERROR") true [bytes "...ER", bytes "ROR...\n"] State.init =
        some st ∧ st.stdout = [] ∧ st.stdout ≠ bytes "...\x1b[32mERROR\x1b[0m...\n" ∧
      st.stdout ≠ bytes "...ERROR...\n" :=
  ⟨State.init, by decide, rfl, by decide, by decide⟩

/-- C4 fails on the code: `logs web --only-matching` without a phrase, with one pod
`web-7d9f` matching. `Run` logs the configuration error and, as the `return` is missing
after it, goes on to call `GetPodLogs` with `grep = ""` and `onlyMatch = true`, which
reads the stream and prints it. -/
theorem only_matching_without_phrase_still_streams :
    logsCmdRun
        { args := [bytes "web"], follow := false, container := [], ns := bytes "default",
          phrase := [], onlyMatching := true, errorReturns := true, clientsetErr := none,
          pods := [⟨⟨bytes "web-7d9f", bytes "default"⟩, none⟩], selected := none } =
      [Event.logError
          (.other "please provide a grep keyword/phrase with the only-matching flag"),
        Event.getClientset, Event.logInfo, Event.getPods (bytes "default"),
        Event.logInfo, Event.logInfo,
        Event.getPodLogs [] (bytes "web") (bytes "web-7d9f") (bytes "default") false true] ∧
    GetPodLogs [] false true (.ok [⟨bytes "started\n", none⟩, ⟨[], some .EOF⟩]) =
      { stdout := bytes "started\n\n", reads := 2, outcome := .returned none } := by
  decide

/-- C5 fails on the code: with the phrase `"foo"` and the chunks `"foo a"`, `"b"`,
`"c\n"` of one line, only-matching mode prints the coloured `"foo a"` and `"b"` and
then nothing: `lastMatching` is cleared at the first continuation, so `"c"` and the
newline that ends the line are lost. -/
theorem matched_line_truncated_after_first_continuation :
    processMessages (bytes "foo") true [bytes "foo a", bytes "b", bytes "c\n"] State.init =
      some { lastLine := [], lastMatching := false,
             stdout := bytes "\x1b[32mfoo\x1b[0m ab" } ∧
    bytes "\x1b[32mfoo\x1b[0m ab" ≠
      ReplaceAll (bytes "foo a") (bytes "foo") (grepWithColor (bytes "foo")) ++ bytes "b" ++
        bytes "c" ++ [newline] := by
  decide

/-- C6 fails on the code: with the phrase `"foo"` and the chunks `"foo ab"` and
`"c foo\n"`, only-matching mode prints both fragments twice: the second fragment is
printed as a continuation (plugin.go:97) and again as a match (plugin.go:109), and
before it `lastLine`, already printed, is printed again (plugin.go:105). -/
theorem matching_fragments_printed_twice :
    processMessages (bytes "foo") true [bytes "foo ab", bytes "c foo\n"] State.init =
      some { lastLine := [], lastMatching := false,
             stdout := bytes "\x1b[32mfoo\x1b[0m abc \x1b[32mfoo\x1b[0m" ++
               bytes "\x1b[32mfoo\x1b[0m abc \x1b[32mfoo\x1b[0m\n" } ∧
    bytes "\x1b[32mfoo\x1b[0m abc \x1b[32mfoo\x1b[0m" ++
        bytes "\x1b[32mfoo\x1b[0m abc \x1b[32mfoo\x1b[0m\n" ≠
      ReplaceAll (bytes "foo ab") (bytes "foo") (grepWithColor (bytes "foo")) ++
        ReplaceAll (bytes "c foo") (bytes "foo") (grepWithColor (bytes "foo")) ++ [newline] := by
  decide

/-- C7 fails on the code: a read that returns zero bytes and an error other than
`io.EOF`. Not following, `GetPodLogs` leaves the loop and returns `nil`; following, it
reads again. In neither case is the error returned. -/
theorem read_error_with_zero_bytes_not_returned (grep : GoString) (onlyMatch : Bool)
    (msg : String) (rest : List ReadResult) :
    GetPodLogs grep false onlyMatch (.ok (⟨[], some (.other msg)⟩ :: rest)) =
      { stdout := [newline], reads := 1, outcome := .returned none } ∧
    GetPodLogs grep true onlyMatch (.ok (⟨[], some (.other msg)⟩ :: rest)) =
      pullLoop grep true onlyMatch rest State.init 1 := by
  constructor <;> simp [GetPodLogs, pullLoop, finish, State.init]

/-- C8 fails on the code: when following, a read that returns zero bytes and `io.EOF`
does not stop the loop. On a stream whose reads all return zero bytes and `io.EOF`,
`GetPodLogs` performs every read the stream offers and has not returned. -/
theorem end_of_stream_ignored_when_following (grep : GoString) (onlyMatch : Bool) (k : Nat) :
    GetPodLogs grep true onlyMatch (.ok (List.replicate k ⟨[], some .EOF⟩)) =
      { stdout := [], reads := k, outcome := .reading } := by
  have key : ∀ (k j : Nat) (st : State),
      pullLoop grep true onlyMatch (List.replicate k ⟨[], some .EOF⟩) st j =
        { stdout := st.stdout, reads := j + k, outcome := .reading } := by
    intro k
    induction k with
    | zero => intro j st; simp [pullLoop]
    | succ k ih =>
      intro j st
      rw [List.replicate_succ, pullLoop]
      simp only [List.length_nil, if_true, Bool.not_true, Bool.false_eq_true, if_false]
      rw [ih]
      simp; omega
  simp [GetPodLogs, key, State.init]

/-- C9: Emit-all mode equals highlighting the whole chunk. For a non-empty phrase without
newline and `onlyMatch = false`, what is printed for a chunk (split on `"\n"`, colour
each line, print `"\n"` after each line but the last) is the chunk in which every
occurrence of the phrase found by the left-to-right non-overlapping scan is wrapped and
every other byte, newlines included, is copied in place: these bytes are appended to
standard output, and `lastLine` and `lastMatching` are unchanged. -/
theorem emit_all_highlights_chunk (grep : GoString) (hg : grep ≠ []) (hn : newline ∉ grep)
    (chunk : GoString) (st : State) :
    processMessage grep false chunk st =
      some { st with stdout := st.stdout ++ highlight chunk grep } := by
  have hlen : grep.length ≠ 0 := fun h => hg (List.length_eq_zero.1 h)
  unfold processMessage highlight
  rw [if_neg hlen, if_neg hg]
  simp only [Bool.false_eq_true, if_false]
  rw [allLinesLoop_eq grep _ _ 0 st (by simp), joinColoured_Split grep hg hn chunk]
  rfl

/-- C9 at the chunk `"aaaa"` with the phrase `"aa"`: two marked occurrences, not three. -/
theorem emit_all_highlights_chunk_witness :
    processMessage (bytes "aa") false (bytes "aaaa") State.init =
        some { lastLine := [], lastMatching := false,
               stdout := bytes "\x1b[32maa\x1b[0m\x1b[32maa\x1b[0m" } ∧
      highlight (bytes "aaaa") (bytes "aa") = bytes "\x1b[32maa\x1b[0m\x1b[32maa\x1b[0m" :=
  ⟨(emit_all_highlights_chunk (bytes "aa") (by decide) (by decide) (bytes "aaaa")
      State.init).trans (by decide), by decide⟩

/-- C10: Index safety of the only-matching loop. For a non-empty phrase, in every state
reached from the initial state by processing chunks (`prior`) and for every chunk,
processing the chunk with `onlyMatch = true` does not panic. `lastLine` does not end in
a newline, so the condition of plugin.go:104 is `i == 0 && len(lastLine) > 0`; a line
that contains the phrase is non-empty and does not end in a newline, so the condition of
plugin.go:118 is evaluated in range and is `i == len(split)-1`; and `lastMatching` is
afterwards true exactly when the final element of the split contains the phrase. -/
theorem only_matching_index_safe (grep : GoString) (hg : grep ≠ [])
    (prior : List GoString) (chunk : GoString) :
    ∃ st st1, processMessages grep true prior State.init = some st ∧
      processMessage grep true chunk st = some st1 ∧
      st.lastLine.getLast? ≠ some newline ∧
      (∀ i, continuesLastLine i st.lastLine = some (decide (i = 0 ∧ st.lastLine.length > 0))) ∧
      (∀ e ∈ Split chunk [newline],
        (ReplaceAll e grep (grepWithColor grep)).getLast? ≠ some newline ∧
        (Contains (ReplaceAll e grep (grepWithColor grep)) grep = true →
          (ReplaceAll e grep (grepWithColor grep)).length > 0 ∧
          ∀ n i, endsUnterminated n i (ReplaceAll e grep (grepWithColor grep)) =
            some (decide (i = n - 1)))) ∧
      st1.lastMatching = Contains ((Split chunk [newline]).getLast (Split_ne_nil chunk)) grep := by
  obtain ⟨st, hst, hl⟩ := processMessages_reach grep hg prior State.init (by simp [State.init])
  obtain ⟨st1, h1, _, h3, _⟩ := processMessage_state grep hg chunk st hl
  refine ⟨st, st1, hst, h1, getLast?_ne_of_not_mem hl, ?_, ?_, h3⟩
  · intro i
    rw [continuesLastLine_eq i st.lastLine hl]
    simp [List.length_pos]
  · intro e he
    have hline := newline_not_mem_ReplaceAll e grep hg (newline_not_mem_of_mem_Split chunk e he)
    refine ⟨getLast?_ne_of_not_mem hline, fun hc => ?_⟩
    have hne := ne_nil_of_Contains _ grep hg hc
    exact ⟨List.length_pos.2 hne, fun n i => endsUnterminated_eq n i _ hne hline⟩

/-- C10 at the phrase `"foo"`, after the chunk `"foo a"`, for the chunk `"b\n"`. -/
theorem only_matching_index_safe_witness :
    ∃ st st1, processMessages (bytes "foo") true [bytes "foo a"] State.init = some st ∧
      processMessage (bytes "foo") true (bytes "b\n") st = some st1 ∧
      st.lastLine.getLast? ≠ some newline ∧
      (∀ i, continuesLastLine i st.lastLine = some (decide (i = 0 ∧ st.lastLine.length > 0))) ∧
      (∀ e ∈ Split (bytes "b\n") [newline],
        (ReplaceAll e (bytes "foo") (grepWithColor (bytes "foo"))).getLast? ≠ some newline ∧
        (Contains (ReplaceAll e (bytes "foo") (grepWithColor (bytes "foo"))) (bytes "foo") = true →
          (ReplaceAll e (bytes "foo") (grepWithColor (bytes "foo"))).length > 0 ∧
          ∀ n i, endsUnterminated n i (ReplaceAll e (bytes "foo") (grepWithColor (bytes "foo"))) =
            some (decide (i = n - 1)))) ∧
      st1.lastMatching =
        Contains ((Split (bytes "b\n") [newline]).getLast (Split_ne_nil (bytes "b\n")))
          (bytes "foo") :=
  only_matching_index_safe (bytes "foo") (by decide) [bytes "foo a"] (bytes "b\n")

end KubectlSimple
